import Mathlib

/-!
# linkctl: version banner, command tree, entry point

A shallow embedding of the Go sources of `space-code/linkctl`
(`pkg/cmd/version`, `pkg/cmd/root`, `pkg/cmd/factory`, `pkg/iostreams`,
`pkg/cmdutil`, `internal/build`, `internal/cmd`) together with theorems about
them.

Conventions of the embedding.
* A Go `string` is a Lean `String`; `fmt.Sprintf` is interpreted on its format
  string, `%s` being the only verb the sources use.
* `regexp` patterns are regular expressions over characters, matched with
  Brzozowski derivatives; a pattern written `^ ... $` matches the whole input.
* Go pointers and interface values are modelled by the objects they refer to:
  a factory owns its streams, each stream field is a writer of its own, and a
  nil field is not represented. A writer is the log of the bytes it has
  received; a write never fails.
* `*cobra.Command` values live in a heap of command nodes addressed by index,
  so that parent pointers and `Root()` are modelled as they are in the library.
-/

namespace regexp

/-- Regular expressions: the fragment of Go `regexp/syntax` the sources use. -/
inductive RE where
  | empty : RE
  | eps : RE
  | chr (c : Char) : RE
  | cls (p : Char → Bool) : RE
  | seq (a b : RE) : RE
  | alt (a b : RE) : RE
  | star (a : RE) : RE

namespace RE

/-- The regular expression `a+`. -/
def plus (a : RE) : RE := seq a (star a)

/-- The regular expression `a?`. -/
def opt (a : RE) : RE := alt a eps

/-- Does the expression accept the empty input? -/
def nullable : RE → Bool
  | empty => false
  | eps => true
  | chr _ => false
  | cls _ => false
  | seq a b => nullable a && nullable b
  | alt a b => nullable a || nullable b
  | star _ => true

/-- Brzozowski derivative of an expression by one character. -/
def deriv : RE → Char → RE
  | empty, _ => empty
  | eps, _ => empty
  | chr c, x => if x = c then eps else empty
  | cls p, x => if p x then eps else empty
  | seq a b, x => if nullable a then alt (seq (deriv a x) b) (deriv b x) else seq (deriv a x) b
  | alt a b, x => alt (deriv a x) (deriv b x)
  | star a, x => seq (deriv a x) (star a)

/-- Whole-input match: the input is consumed by successive derivatives. -/
def accepts : RE → List Char → Bool
  | r, [] => nullable r
  | r, x :: xs => accepts (deriv r x) xs

end RE

/-- Perl class `\d` of Go `regexp`: the ASCII digits. -/
def isDigit (c : Char) : Bool := decide ('0' ≤ c) && decide (c ≤ '9')

/-- Perl class `\w` of Go `regexp`: `[0-9A-Za-z_]`. -/
def isWord (c : Char) : Bool :=
  isDigit c || (decide ('A' ≤ c) && decide (c ≤ 'Z')) || (decide ('a' ≤ c) && decide (c ≤ 'z'))
    || c == '_'

/-- `MatchString` for a pattern of the form `^ body $` (no multi-line flag):
the whole string has to match `body`. -/
def MatchString (body : RE) (s : String) : Bool := body.accepts s.data

end regexp

namespace strings

/-- Go `strings.TrimPrefix`: `s` without the leading `pre`, or `s` itself when
`s` does not start with `pre`. -/
def TrimPrefix (s pre : String) : String :=
  if pre.data.isPrefixOf s.data then String.mk (s.data.drop pre.data.length) else s

end strings

namespace fmt

/-- Interpretation of a format string whose only verb is `%s`, with string operands. -/
def format : List Char → List String → List Char
  | '%' :: 's' :: rest, a :: as => a.data ++ format rest as
  | '%' :: 's' :: rest, [] => "%!s(MISSING)".data ++ format rest []
  | c :: rest, as => c :: format rest as
  | [], _ => []

/-- Go `fmt.Sprintf` restricted to `%s` verbs and string operands. -/
def Sprintf (f : String) (args : List String) : String := String.mk (format f.data args)

end fmt

namespace version

open regexp strings fmt

/-- The body `\d+\.\d+\.\d+(-[\w.]+)?` shared by the pattern of `changelogURL`
and by the strict semantic-version pattern. -/
def semverBody : RE :=
  .seq (.plus (.cls isDigit)) (.seq (.chr '.') (.seq (.plus (.cls isDigit)) (.seq (.chr '.')
    (.seq (.plus (.cls isDigit))
      (.opt (.seq (.chr '-') (.plus (.cls (fun c => isWord c || c == '.')))))))))

/-- The strict pattern `^\d+\.\d+\.\d+(-[\w.]+)?$`. -/
def strictPattern : RE := semverBody

/-- The pattern compiled in `changelogURL`: `^v?\d+\.\d+\.\d+(-[\w.]+)?$`. -/
def changelogPattern : RE := .seq (.opt (.chr 'v')) semverBody

/-- `changelogURL` of `pkg/cmd/version/version.go`. -/
def changelogURL (version : String) : String :=
  let path := "https://github.com/space-code/linkctl"
  if !MatchString changelogPattern version then
    Sprintf "%s/releases/latest" [path]
  else
    let url := Sprintf "%s/releases/tag/v%s" [path, TrimPrefix version "v"]
    url

/-- `Format` of `pkg/cmd/version/version.go`. -/
def Format (version : String) : String :=
  let version := TrimPrefix version "v"
  Sprintf "linkctl version %s\n%s\n" [version, changelogURL version]

end version

namespace os

/-- An open file of the process: descriptor number and name (Go `os.File`). -/
structure File where
  fd : Nat
  name : String
deriving DecidableEq, Repr

/-- Go `os.Stdin`: descriptor 0. -/
def Stdin : File := { fd := 0, name := "/dev/stdin" }

/-- Go `os.Stdout`: descriptor 1. -/
def Stdout : File := { fd := 1, name := "/dev/stdout" }

/-- Go `os.Stderr`: descriptor 2. -/
def Stderr : File := { fd := 2, name := "/dev/stderr" }

end os

namespace io

/-- A value of interface `io.Reader`: the file it reads from. -/
structure Reader where
  file : os.File
deriving DecidableEq, Repr

/-- A value of interface `io.Writer`: the file it is bound to and the bytes
written through it so far. -/
structure Writer where
  file : os.File
  written : String
deriving DecidableEq, Repr

/-- One call of `Write`: the bytes are appended to what the writer received. -/
def Writer.Write (w : Writer) (p : String) : Writer := { w with written := w.written ++ p }

end io

namespace fmt

/-- Go `fmt.Fprint` with one string operand: the operand is written as it is. -/
def Fprint (w : io.Writer) (a : String) : io.Writer := w.Write a

/-- Go `fmt.Fprintf` restricted to `%s` verbs and string operands. -/
def Fprintf (w : io.Writer) (f : String) (args : List String) : io.Writer := w.Write (Sprintf f args)

end fmt

namespace iostreams

/-- `IOStreams` of `pkg/iostreams/iostreams.go`. -/
structure IOStreams where
  In : io.Reader
  Out : io.Writer
  ErrOut : io.Writer
deriving DecidableEq, Repr

/-- `System` of `pkg/iostreams/iostreams.go`: fresh handles on the standard
files of the process, nothing written through them yet. -/
def System : IOStreams :=
  let ios : IOStreams :=
    { In := { file := os.Stdin }
      Out := { file := os.Stdout, written := "" }
      ErrOut := { file := os.Stderr, written := "" } }
  ios

end iostreams

namespace cmdutil

/-- `Factory` of `pkg/cmdutil/factory.go`. -/
structure Factory where
  AppVersion : String
  ExecutableName : String
  IOStreams : iostreams.IOStreams
deriving DecidableEq, Repr

end cmdutil

namespace factory

/-- `ioStreams` of `pkg/cmd/factory/default.go`. -/
def ioStreams : iostreams.IOStreams :=
  let io := iostreams.System
  io

/-- `New` of `pkg/cmd/factory/default.go`. -/
def New (appVersion : String) : cmdutil.Factory :=
  { AppVersion := appVersion
    ExecutableName := "linkctl"
    IOStreams := ioStreams }

end factory

namespace cobra

/-- Address of a command node in the heap. -/
abbrev Ptr := Nat

/-- The function literals this repository assigns to the `Run` field of a
command. A handler closes over the factory pointer `f` only; the factory it
runs on is supplied when it is invoked. -/
inductive Handler where
  | versionRun : Handler
deriving DecidableEq, Repr

/-- Modelled from the spec: the command node of the embedded command framework
(`cobra.Command`, a library that is not under `src/`): name and descriptions,
annotations, ordered children, optional run handler, and the parent link that
`Root` follows. Fields a composite literal omits take their zero value. -/
structure Command where
  Use : String := ""
  Short : String := ""
  Long : String := ""
  Hidden : Bool := false
  Annotations : List (String × String) := []
  Run : Option Handler := none
  commands : List Ptr := []
  parent : Option Ptr := none
deriving DecidableEq, Repr

/-- The command nodes allocated so far; a node's address is its index. -/
abbrev Heap := List Command

/-- Allocation of a new node (`&cobra.Command{...}`): the node is stored at a fresh address. -/
def alloc (h : Heap) (c : Command) : Ptr × Heap := (h.length, h ++ [c])

/-- In-place update of the node at address `p`. -/
def update (h : Heap) (p : Ptr) (g : Command → Command) : Heap :=
  match h[p]? with
  | some c => h.set p (g c)
  | none => h

/-- Modelled from the spec: `AddCommand` of the command framework, which
registers each given command as a child: the child's parent link is set and
the child is appended to the parent's children. -/
def AddCommand (h : Heap) (c : Ptr) (cmds : List Ptr) : Heap :=
  cmds.foldl (fun h x =>
    let h := update h x (fun child => { child with parent := some c })
    update h c (fun par => { par with commands := par.commands ++ [x] })) h

/-- Walk up the parent links for at most `fuel` nodes. -/
def RootFuel : Nat → Heap → Ptr → Option Ptr
  | 0, _, _ => none
  | fuel + 1, h, c =>
    match h[c]? with
    | none => none
    | some cmd =>
      match cmd.parent with
      | none => some c
      | some p => RootFuel fuel h p

/-- Modelled from the spec: `Root` of the command framework, the topmost
ancestor reached by walking up the parent links (the node itself when it has
no parent). A chain of parents without a cycle visits at most every node of
the heap once, which bounds the walk. -/
def Root (h : Heap) (c : Ptr) : Option Ptr := RootFuel h.length h c

/-- Modelled from the spec: `Name` of the command framework, the first word of `Use`. -/
def Command.Name (c : Command) : String := String.mk (c.Use.data.takeWhile (fun x => x != ' '))

/-- Indexing a Go `map[string]string`: the zero value for an absent key. -/
def mapIndex (m : List (String × String)) (k : String) : String :=
  match m.lookup k with
  | some v => v
  | none => ""

/-- A command tree without addresses. -/
inductive Tree where
  | node (Use Short Long : String) (Hidden : Bool) (Annotations : List (String × String))
      (Run : Option Handler) (children : List Tree) : Tree

/-- All entries of a list when each one is present. -/
def allSome {α : Type} : List (Option α) → Option (List α)
  | [] => some []
  | none :: _ => none
  | some a :: rest =>
    match allSome rest with
    | some as => some (a :: as)
    | none => none

/-- The tree below address `p`, read off the heap down to depth `fuel`. -/
def treeFuel : Nat → Heap → Ptr → Option Tree
  | 0, _, _ => none
  | fuel + 1, h, p =>
    match h[p]? with
    | none => none
    | some c =>
      match allSome (c.commands.map (fun q => treeFuel fuel h q)) with
      | none => none
      | some ts => some (.node c.Use c.Short c.Long c.Hidden c.Annotations c.Run ts)

/-- The tree below address `p`; a tree in the heap is no deeper than the heap is long. -/
def treeAt (h : Heap) (p : Ptr) : Option Tree := treeFuel h.length h p

end cobra

/-- A Go `error` value, represented by the text of its `Error()` method. -/
abbrev error := String

namespace version

open cobra

/-- The function literal assigned to `Run` in `NewCmdVersion`
(`pkg/cmd/version/version.go`), run on the factory `f` it closes over:
`fmt.Fprint(f.IOStreams.Out, cmd.Root().Annotations["versionInfo"])`.
The result is absent when `cmd` is not a node of the heap. -/
def NewCmdVersion.Run (f : cmdutil.Factory) (h : Heap) (cmd : Ptr) (_args : List String) :
    Option cmdutil.Factory :=
  match Root h cmd with
  | none => none
  | some r =>
    match h[r]? with
    | none => none
    | some rootCmd =>
      some { f with IOStreams :=
        { f.IOStreams with Out := fmt.Fprint f.IOStreams.Out (mapIndex rootCmd.Annotations "versionInfo") } }

/-- `NewCmdVersion` of `pkg/cmd/version/version.go`. The factory `f` is used
by the `Run` closure only. -/
def NewCmdVersion (_f : cmdutil.Factory) (h : Heap) : Ptr × Heap :=
  let cmd : Command :=
    { Use := "version"
      Short := "Show linkctl version information"
      Hidden := true
      Run := some Handler.versionRun }
  alloc h cmd

end version

namespace cobra

/-- Invocation of the `Run` handler of the command at `cmd` with arguments
`args`, on the factory the handler closes over. The result is absent when
the command has no handler. -/
def runHandler (f : cmdutil.Factory) (h : Heap) (cmd : Ptr) (args : List String) :
    Option cmdutil.Factory :=
  match h[cmd]? with
  | none => none
  | some c =>
    match c.Run with
    | none => none
    | some Handler.versionRun => version.NewCmdVersion.Run f h cmd args

end cobra

namespace root

open cobra

/-- `NewCmdRoot` of `pkg/cmd/root/root.go`: the address of the root command,
the error (always nil), and the heap after the call. -/
def NewCmdRoot (f : cmdutil.Factory) (appVersion : String) (h : Heap) :
    (Ptr × Option error) × Heap :=
  let c : Command :=
    { Use := "linkctl"
      Short := "Mobile Deep Link Debugger"
      Long := "linkctl - debug universal links, deeplinks, and app links."
      Annotations := [("versionInfo", version.Format appVersion)] }
  let (cmd, h) := alloc h c
  let (v, h) := version.NewCmdVersion f h
  let h := AddCommand h cmd [v]
  ((cmd, none), h)

/-- The root node as `NewCmdRoot` leaves it, its only child being at address `q`. -/
def rootNode (appVersion : String) (q : Ptr) : Command :=
  { Use := "linkctl"
    Short := "Mobile Deep Link Debugger"
    Long := "linkctl - debug universal links, deeplinks, and app links."
    Annotations := [("versionInfo", version.Format appVersion)]
    commands := [q] }

/-- The version node as `NewCmdRoot` leaves it, its parent being at address `p`. -/
def versionNode (p : Ptr) : Command :=
  { Use := "version"
    Short := "Show linkctl version information"
    Hidden := true
    Run := some Handler.versionRun
    parent := some p }

/-- The tree `NewCmdRoot` builds, without addresses: the root command with
the version command as its only child. -/
def builtTree (appVersion : String) : Tree :=
  .node "linkctl" "Mobile Deep Link Debugger"
    "linkctl - debug universal links, deeplinks, and app links." false
    [("versionInfo", version.Format appVersion)] none
    [.node "version" "Show linkctl version information" "" true [] (some Handler.versionRun) []]

end root

namespace debug

/-- Go `runtime/debug.Module`, the fields the sources read. -/
structure Module where
  Path : String := ""
  Version : String := ""
deriving DecidableEq, Repr

/-- Go `runtime/debug.BuildInfo`, the fields the sources read. -/
structure BuildInfo where
  Main : Module := {}
deriving DecidableEq, Repr

end debug

namespace build

/-- The package variable `Version` of `internal/build/build.go` as declared. -/
def Version : String := ""

/-- `init` of `internal/build/build.go`. The argument is the result of
`debug.ReadBuildInfo()`: the build information when `ok` holds, nothing
otherwise. The result is the value of `Version` after initialisation. -/
def init (readBuildInfo : Option debug.BuildInfo) : String :=
  match readBuildInfo with
  | some info => if info.Main.Version != "(devel)" then info.Main.Version else Version
  | none => Version

end build

namespace cmd

open cobra

/-- `exitCode` of `internal/cmd/cmd.go`. -/
abbrev exitCode := Int

/-- The constant `exitOK`. -/
def exitOK : exitCode := 0

/-- The constant `exitError`. -/
def exitError : exitCode := 1

/-- `Main` of `internal/cmd/cmd.go`. `buildVersion` is the value of
`build.Version`. The constructor of the root command is a parameter, so that
both results the code tests for (`err != nil`, `err == nil`) can be supplied;
the program passes `root.NewCmdRoot`. `ExecuteContextC` of the command
framework is a parameter: from the factory, the heap and the root command it
gives the factory after the run and the error of the run. The local `stderr`
is the `ErrOut` writer of the factory, so after the run it is the `ErrOut` of
the factory the executor returns. The context argument carries no data. The
result is the exit code and the factory, streams included, when `Main`
returns. -/
def Main (buildVersion : String)
    (NewCmdRoot : cmdutil.Factory → String → Heap → (Ptr × Option error) × Heap)
    (ExecuteContextC : cmdutil.Factory → Heap → Ptr → cmdutil.Factory × Option error) :
    exitCode × cmdutil.Factory :=
  let cmdFactory := factory.New buildVersion
  match NewCmdRoot cmdFactory buildVersion [] with
  | ((_, some err), _) =>
    let stderr := fmt.Fprintf cmdFactory.IOStreams.ErrOut "failed to create root command: %s\n" [err]
    (exitError, { cmdFactory with IOStreams := { cmdFactory.IOStreams with ErrOut := stderr } })
  | ((rootCmd, none), h) =>
    match ExecuteContextC cmdFactory h rootCmd with
    | (f, some err) =>
      let stderr := fmt.Fprintf f.IOStreams.ErrOut "error: %s\n" [err]
      (exitError, { f with IOStreams := { f.IOStreams with ErrOut := stderr } })
    | (f, none) => (exitOK, f)

end cmd

/-! ## Regular-expression matching -/

namespace regexp.RE

theorem accepts_empty (s : List Char) : accepts empty s = false := by
  induction s with
  | nil => rfl
  | cons x xs ih => simpa [accepts, deriv] using ih

theorem accepts_eps (s : List Char) : accepts eps s = true ↔ s = [] := by
  cases s with
  | nil => simp [accepts, nullable]
  | cons x xs => simp [accepts, deriv, accepts_empty]

theorem accepts_chr (c : Char) (s : List Char) : accepts (chr c) s = true ↔ s = [c] := by
  cases s with
  | nil => simp [accepts, nullable]
  | cons x xs =>
    by_cases h : x = c
    · simp [accepts, deriv, h, accepts_eps]
    · simp [accepts, deriv, h, accepts_empty]

theorem accepts_cls (p : Char → Bool) (s : List Char) :
    accepts (cls p) s = true ↔ ∃ c, s = [c] ∧ p c = true := by
  cases s with
  | nil => simp [accepts, nullable]
  | cons x xs =>
    by_cases h : p x = true
    · simp only [accepts, deriv, h, if_true, accepts_eps]
      constructor
      · rintro rfl
        exact ⟨x, rfl, h⟩
      · rintro ⟨c, hc, _⟩
        exact (List.cons.inj hc).2
    · constructor
      · intro hf
        simp [accepts, deriv, h, accepts_empty] at hf
      · rintro ⟨c, hc, hp⟩
        exact absurd ((List.cons.inj hc).1 ▸ hp) h

theorem accepts_alt (a b : RE) (s : List Char) :
    accepts (alt a b) s = (accepts a s || accepts b s) := by
  induction s generalizing a b with
  | nil => rfl
  | cons x xs ih => simp [accepts, deriv, ih]

theorem accepts_seq (a b : RE) (s : List Char) :
    accepts (seq a b) s = true ↔ ∃ s₁ s₂, s = s₁ ++ s₂ ∧ accepts a s₁ = true ∧ accepts b s₂ = true := by
  induction s generalizing a with
  | nil =>
    constructor
    · intro h
      simp [accepts, nullable] at h
      exact ⟨[], [], rfl, by simpa [accepts] using h.1, by simpa [accepts] using h.2⟩
    · rintro ⟨s₁, s₂, h, h₁, h₂⟩
      obtain ⟨rfl, rfl⟩ : s₁ = [] ∧ s₂ = [] := by simpa using h.symm
      simp [accepts, nullable] at h₁ h₂ ⊢
      exact ⟨h₁, h₂⟩
  | cons x xs ih =>
    have key : accepts (seq (deriv a x) b) xs = true ↔
        ∃ t s₂, x :: xs = (x :: t) ++ s₂ ∧ accepts a (x :: t) = true ∧ accepts b s₂ = true := by
      rw [ih]
      constructor
      · rintro ⟨t, s₂, h, h₁, h₂⟩
        exact ⟨t, s₂, by simp [h], by simpa [accepts] using h₁, h₂⟩
      · rintro ⟨t, s₂, h, h₁, h₂⟩
        exact ⟨t, s₂, by simpa using h, by simpa [accepts] using h₁, h₂⟩
    constructor
    · intro h
      by_cases hn : nullable a = true
      · simp only [accepts, deriv, hn, if_true, accepts_alt, Bool.or_eq_true] at h
        rcases h with h | h
        · obtain ⟨t, s₂, e, h₁, h₂⟩ := key.1 h
          exact ⟨x :: t, s₂, e, h₁, h₂⟩
        · exact ⟨[], x :: xs, rfl, by simpa [accepts] using hn, by simpa [accepts] using h⟩
      · simp only [accepts, deriv, hn, if_false] at h
        obtain ⟨t, s₂, e, h₁, h₂⟩ := key.1 h
        exact ⟨x :: t, s₂, e, h₁, h₂⟩
    · rintro ⟨s₁, s₂, e, h₁, h₂⟩
      cases s₁ with
      | nil =>
        have hn : nullable a = true := by simpa [accepts] using h₁
        have e2 : s₂ = x :: xs := by simpa using e.symm
        subst e2
        simp only [accepts, deriv, hn, if_true, accepts_alt, Bool.or_eq_true]
        exact Or.inr (by simpa [accepts] using h₂)
      | cons y t =>
        have e2 : x = y := by simp at e; exact e.1
        subst e2
        have hk := key.2 ⟨t, s₂, e, h₁, h₂⟩
        by_cases hn : nullable a = true
        · simp only [accepts, deriv, hn, if_true, accepts_alt, Bool.or_eq_true]
          exact Or.inl hk
        · simpa only [accepts, deriv, hn, if_false] using hk

/-- A match of `a+ b` starts with a character matched by `a` when `a` is a class. -/
theorem accepts_plus_cls_head (p : Char → Bool) (b : RE) (s : List Char)
    (h : accepts (seq (plus (cls p)) b) s = true) : ∃ c t, s = c :: t ∧ p c = true := by
  obtain ⟨s₁, s₂, e, h₁, _⟩ := (accepts_seq _ _ _).1 h
  obtain ⟨u, w, e₁, hu, _⟩ := (accepts_seq _ _ _).1 h₁
  obtain ⟨c, ec, hc⟩ := (accepts_cls _ _).1 hu
  exact ⟨c, w ++ s₂, by simp [e, e₁, ec], hc⟩

/-- An optional leading character: `c? r` matches `s` iff `r` matches `s` or
`s` is `c` followed by a match of `r`. -/
theorem accepts_opt_chr_seq (c : Char) (r : RE) (s : List Char) :
    accepts (seq (opt (chr c)) r) s = true ↔
      accepts r s = true ∨ ∃ t, s = c :: t ∧ accepts r t = true := by
  rw [accepts_seq]
  constructor
  · rintro ⟨s₁, s₂, e, h₁, h₂⟩
    rw [opt, accepts_alt, Bool.or_eq_true, accepts_chr, accepts_eps] at h₁
    rcases h₁ with rfl | rfl
    · exact Or.inr ⟨s₂, by simpa using e, h₂⟩
    · exact Or.inl (by simpa [e] using h₂)
  · rintro (h | ⟨t, e, h⟩)
    · exact ⟨[], s, rfl, by simp [opt, accepts_alt, accepts, nullable], h⟩
    · refine ⟨[c], t, by simpa using e, ?_, h⟩
      rw [opt, accepts_alt, Bool.or_eq_true, accepts_chr]
      exact Or.inl rfl

end regexp.RE

/-! ## Strings and formatting -/

namespace strings

theorem TrimPrefix_v_cons (t : List Char) : TrimPrefix (String.mk ('v' :: t)) "v" = String.mk t := by
  simp [TrimPrefix, List.isPrefixOf]

theorem TrimPrefix_v_of_ne (c : Char) (t : List Char) (h : c ≠ 'v') :
    TrimPrefix (String.mk (c :: t)) "v" = String.mk (c :: t) := by
  have h2 : ('v' == c) = false := by simpa using fun e => h e.symm
  simp [TrimPrefix, List.isPrefixOf, h2]

theorem TrimPrefix_v_nil : TrimPrefix "" "v" = "" := by decide

end strings

namespace fmt

theorem Sprintf_banner (a b : String) :
    Sprintf "linkctl version %s\n%s\n" [a, b] = "linkctl version " ++ a ++ "\n" ++ b ++ "\n" := by
  apply String.ext
  simp [Sprintf, format]

theorem Sprintf_latest (p : String) :
    Sprintf "%s/releases/latest" [p] = p ++ "/releases/latest" := by
  apply String.ext
  simp [Sprintf, format]

theorem Sprintf_tag (p t : String) :
    Sprintf "%s/releases/tag/v%s" [p, t] = p ++ "/releases/tag/v" ++ t := by
  apply String.ext
  simp [Sprintf, format]

end fmt

/-! ## The version banner -/

namespace version

open regexp strings fmt

/-- A string matching the strict pattern starts with an ASCII digit. -/
theorem strict_head (t : String) (h : MatchString strictPattern t = true) :
    ∃ c r, t = String.mk (c :: r) ∧ isDigit c = true := by
  obtain ⟨c, r, e, hc⟩ := RE.accepts_plus_cls_head _ _ _ h
  exact ⟨c, r, String.ext e, hc⟩

/-- Removing a leading "v" leaves a strict semantic version untouched. -/
theorem TrimPrefix_strict (t : String) (h : MatchString strictPattern t = true) :
    TrimPrefix t "v" = t := by
  obtain ⟨c, r, rfl, hc⟩ := strict_head t h
  apply TrimPrefix_v_of_ne
  rintro rfl
  exact absurd hc (by decide)

/-- The pattern of `changelogURL` accepts exactly the strings that match the
strict pattern once a leading "v" is removed. -/
theorem changelogPattern_iff (t : String) :
    MatchString changelogPattern t = true ↔ MatchString strictPattern (TrimPrefix t "v") = true := by
  unfold changelogPattern MatchString
  rw [RE.accepts_opt_chr_seq]
  constructor
  · rintro (h | ⟨r, e, h⟩)
    · rw [TrimPrefix_strict t h]; exact h
    · have : t = String.mk ('v' :: r) := String.ext e
      rw [this, TrimPrefix_v_cons]; exact h
  · intro h
    rcases t with ⟨_ | ⟨c, r⟩⟩
    · left; simpa [TrimPrefix, List.isPrefixOf] using h
    · by_cases hc : c = 'v'
      · subst hc
        rw [TrimPrefix_v_cons] at h
        exact Or.inr ⟨r, rfl, h⟩
      · rw [TrimPrefix_v_of_ne c r hc] at h
        exact Or.inl h

theorem changelogURL_tag (t : String) (h : MatchString strictPattern (TrimPrefix t "v") = true) :
    changelogURL t =
      "https://github.com/space-code/linkctl/releases/tag/v" ++ TrimPrefix t "v" := by
  have hm := (changelogPattern_iff t).2 h
  simp only [changelogURL, hm, Sprintf_tag]
  rfl

theorem changelogURL_latest (t : String) (h : MatchString strictPattern (TrimPrefix t "v") = false) :
    changelogURL t = "https://github.com/space-code/linkctl/releases/latest" := by
  have hm : MatchString changelogPattern t = false := by
    cases hc : MatchString changelogPattern t with
    | false => rfl
    | true => rw [(changelogPattern_iff t).1 hc] at h; exact absurd h (by simp)
  simp only [changelogURL, hm, Sprintf_latest]
  rfl

theorem Format_eq (s : String) :
    Format s = "linkctl version " ++ TrimPrefix s "v" ++ "\n" ++ changelogURL (TrimPrefix s "v") ++ "\n" := by
  simp only [Format, Sprintf_banner]

end version

/-! ## Claims about `Format` -/

namespace version

open regexp strings fmt

/-- C1: when `s`, or `s` with one leading "v" removed, matches the strict
pattern `^\d+\.\d+\.\d+(-[\w.]+)?$`, `Format s` is the banner line for `t`
followed by the release-tag URL `.../releases/tag/v` + `t`, where `t` is `s`
with a single leading "v" removed. -/
theorem Format_semver (s : String)
    (h : MatchString strictPattern s = true ∨ MatchString strictPattern (TrimPrefix s "v") = true) :
    Format s = "linkctl version " ++ TrimPrefix s "v" ++ "\n"
      ++ "https://github.com/space-code/linkctl/releases/tag/v" ++ TrimPrefix s "v" ++ "\n" := by
  have ht : MatchString strictPattern (TrimPrefix s "v") = true := by
    rcases h with h | h
    · rw [TrimPrefix_strict s h]; exact h
    · exact h
  have ht2 : MatchString strictPattern (TrimPrefix (TrimPrefix s "v") "v") = true := by
    rw [TrimPrefix_strict _ ht]; exact ht
  rw [Format_eq, changelogURL_tag _ ht2, TrimPrefix_strict _ ht]
  simp only [String.append_assoc]

/-- Witness of C1 at "v1.2.3" and at "1.2.3-beta.1". -/
theorem Format_semver_witness :
    Format "v1.2.3"
        = "linkctl version 1.2.3\nhttps://github.com/space-code/linkctl/releases/tag/v1.2.3\n" ∧
      Format "1.2.3-beta.1"
        = "linkctl version 1.2.3-beta.1\nhttps://github.com/space-code/linkctl/releases/tag/v1.2.3-beta.1\n" :=
  ⟨(Format_semver "v1.2.3" (Or.inr (by decide))).trans (by decide),
   (Format_semver "1.2.3-beta.1" (Or.inl (by decide))).trans (by decide)⟩

/-- C2 fails at "vv1.2.3": with one leading "v" removed the string is
"v1.2.3", which does not match the strict pattern, yet `Format` answers
with the release-tag URL and not with `.../releases/latest`. -/
theorem Format_latest_counterexample :
    MatchString strictPattern (TrimPrefix "vv1.2.3" "v") = false ∧
      Format "vv1.2.3" ≠ "linkctl version " ++ TrimPrefix "vv1.2.3" "v" ++ "\n"
        ++ "https://github.com/space-code/linkctl/releases/latest" ++ "\n" ∧
      Format "vv1.2.3"
        = "linkctl version v1.2.3\nhttps://github.com/space-code/linkctl/releases/tag/v1.2.3\n" := by
  decide

/-- C2, amended: let `t` be `s` with a single leading "v" removed. If `t`
with one further leading "v" removed (hence also `t` itself) does not match
the strict pattern, `Format s` is the banner line for `t` followed by
`.../releases/latest`. -/
theorem Format_latest (s : String)
    (h : MatchString strictPattern (TrimPrefix (TrimPrefix s "v") "v") = false) :
    MatchString strictPattern (TrimPrefix s "v") = false ∧
      Format s = "linkctl version " ++ TrimPrefix s "v" ++ "\n"
        ++ "https://github.com/space-code/linkctl/releases/latest" ++ "\n" := by
  constructor
  · cases ht : MatchString strictPattern (TrimPrefix s "v") with
    | false => rfl
    | true => rw [TrimPrefix_strict _ ht, ht] at h; exact absurd h (by simp)
  · rw [Format_eq, changelogURL_latest _ h]

/-- Witness of the amended C2 at the empty string and at "devel". -/
theorem Format_latest_witness :
    Format "" = "linkctl version \nhttps://github.com/space-code/linkctl/releases/latest\n" ∧
      Format "devel"
        = "linkctl version devel\nhttps://github.com/space-code/linkctl/releases/latest\n" :=
  ⟨((Format_latest "" (by decide)).2).trans (by decide),
   ((Format_latest "devel" (by decide)).2).trans (by decide)⟩

/-- C9: for `t` matching the strict pattern, `Format ("vv" ++ t)` displays
the version as "v" + `t` and gives the release-tag URL carrying a single "v". -/
theorem Format_double_v (t : String) (h : MatchString strictPattern t = true) :
    Format ("vv" ++ t) = "linkctl version v" ++ t ++ "\n"
      ++ "https://github.com/space-code/linkctl/releases/tag/v" ++ t ++ "\n" := by
  have e1 : "vv" ++ t = String.mk ('v' :: ('v' :: t.data)) := String.ext (by simp)
  have e2 : TrimPrefix ("vv" ++ t) "v" = "v" ++ t := by
    rw [e1, TrimPrefix_v_cons]; exact String.ext (by simp)
  have e3 : TrimPrefix ("v" ++ t) "v" = t := by
    have : "v" ++ t = String.mk ('v' :: t.data) := String.ext (by simp)
    rw [this, TrimPrefix_v_cons]
  have ht : MatchString strictPattern (TrimPrefix ("v" ++ t) "v") = true := by rw [e3]; exact h
  rw [Format_eq, e2, changelogURL_tag _ ht, e3]
  apply String.ext
  simp [String.data_append]

/-- Witness of C9 at "1.2.3". -/
theorem Format_double_v_witness :
    Format "vv1.2.3"
      = "linkctl version v1.2.3\nhttps://github.com/space-code/linkctl/releases/tag/v1.2.3\n" :=
  (Format_double_v "1.2.3" (by decide)).trans (by decide)

end version

/-! ## The command tree -/

namespace cobra

theorem update_cons_succ (x : Command) (l : Heap) (n : Ptr) (g : Command → Command) :
    update (x :: l) (n + 1) g = x :: update l n g := by
  unfold update
  cases hl : l[n]? with
  | none => simp [hl]
  | some c => simp [hl]

theorem update_append_here (h : Heap) (a : Command) (t : Heap) (g : Command → Command) :
    update (h ++ a :: t) h.length g = h ++ g a :: t := by
  induction h with
  | nil => simp [update]
  | cons x xs ih => simpa [update_cons_succ] using ih

theorem update_append_next (h : Heap) (a b : Command) (t : Heap) (g : Command → Command) :
    update (h ++ a :: b :: t) (h.length + 1) g = h ++ a :: g b :: t := by
  have := update_append_here (h ++ [a]) b t g
  simpa using this

theorem getElem?_append_here (h : Heap) (a : Command) (t : Heap) :
    (h ++ a :: t)[h.length]? = some a := by
  induction h with
  | nil => simp
  | cons x xs ih => simpa using ih

theorem getElem?_append_next (h : Heap) (a b : Command) (t : Heap) :
    (h ++ a :: b :: t)[h.length + 1]? = some b := by
  have := getElem?_append_here (h ++ [a]) b t
  simpa using this

end cobra

namespace root

open cobra

theorem NewCmdRoot_eq (f : cmdutil.Factory) (v : String) (h : Heap) :
    NewCmdRoot f v h
      = ((h.length, none), h ++ [rootNode v (h.length + 1), versionNode h.length]) := by
  simp only [NewCmdRoot, version.NewCmdVersion, alloc, AddCommand, List.foldl, List.length_append,
    List.length_singleton, List.append_assoc, List.singleton_append]
  rw [update_append_next, update_append_here]
  rfl

end root

namespace root

open cobra

theorem getElem?_root (v : String) (h : Heap) :
    (h ++ [rootNode v (h.length + 1), versionNode h.length])[h.length]?
      = some (rootNode v (h.length + 1)) :=
  getElem?_append_here h _ _

theorem getElem?_version (v : String) (h : Heap) :
    (h ++ [rootNode v (h.length + 1), versionNode h.length])[h.length + 1]?
      = some (versionNode h.length) :=
  getElem?_append_next h _ _ _

theorem versionNode_Name (p : Ptr) : (versionNode p).Name = "version" := by
  show String.mk (List.takeWhile (fun x => x != ' ') "version".data) = "version"
  decide

theorem length_built (v : String) (h : Heap) :
    (h ++ [rootNode v (h.length + 1), versionNode h.length]).length = h.length + 2 := by
  simp

theorem RootFuel_child (H : Heap) (p q : Ptr) (r c : Command) (n : Nat)
    (hr : H[p]? = some r) (hc : H[q]? = some c) (hcp : c.parent = some p)
    (hrp : r.parent = none) : RootFuel (n + 2) H q = some p := by
  simp [RootFuel, hr, hc, hcp, hrp]

theorem treeFuel_child (H : Heap) (p q : Ptr) (r c : Command) (n : Nat)
    (hr : H[p]? = some r) (hc : H[q]? = some c) (hrc : r.commands = [q]) (hcc : c.commands = []) :
    treeFuel (n + 2) H p
      = some (.node r.Use r.Short r.Long r.Hidden r.Annotations r.Run
          [.node c.Use c.Short c.Long c.Hidden c.Annotations c.Run []]) := by
  simp [treeFuel, hr, hc, hrc, hcc, allSome]

theorem Root_version (v : String) (h : Heap) :
    Root (h ++ [rootNode v (h.length + 1), versionNode h.length]) (h.length + 1)
      = some h.length := by
  rw [Root, length_built]
  exact RootFuel_child _ _ _ _ _ _ (getElem?_root v h) (getElem?_version v h) rfl rfl

theorem treeAt_root (v : String) (h : Heap) :
    treeAt (h ++ [rootNode v (h.length + 1), versionNode h.length]) h.length
      = some (builtTree v) := by
  rw [treeAt, length_built]
  exact treeFuel_child _ _ _ _ _ _ (getElem?_root v h) (getElem?_version v h) rfl rfl

theorem runHandler_version (f : cmdutil.Factory) (v : String) (h : Heap) (args : List String) :
    runHandler f (h ++ [rootNode v (h.length + 1), versionNode h.length]) (h.length + 1) args
      = some { f with IOStreams :=
          { f.IOStreams with Out := f.IOStreams.Out.Write (version.Format v) } } := by
  have hm : mapIndex (rootNode v (h.length + 1)).Annotations "versionInfo" = version.Format v := by
    simp [rootNode, mapIndex, List.lookup]
  have hrun : (versionNode h.length).Run = some Handler.versionRun := rfl
  simp only [runHandler, getElem?_version, hrun, version.NewCmdVersion.Run, Root_version,
    getElem?_root, hm, fmt.Fprint]

end root

/-! ## Claims about the command tree -/

namespace root

open cobra

/-- C3: on the tree built by `NewCmdRoot f v`, running the handler of the
"version" subcommand, whatever the arguments, appends to `f.IOStreams.Out`
exactly the value stored under the root's "versionInfo" annotation, which
is `Format v`, and leaves `f.IOStreams.ErrOut` as it was. -/
theorem version_handler_writes_annotation (f : cmdutil.Factory) (v : String) (h : Heap)
    (args : List String) :
    ∃ rootCmd versionCmd q f',
      (NewCmdRoot f v h).2[(NewCmdRoot f v h).1.1]? = some rootCmd ∧
      rootCmd.commands = [q] ∧
      (NewCmdRoot f v h).2[q]? = some versionCmd ∧
      versionCmd.Name = "version" ∧
      mapIndex rootCmd.Annotations "versionInfo" = version.Format v ∧
      runHandler f (NewCmdRoot f v h).2 q args = some f' ∧
      f'.IOStreams.Out.written
        = f.IOStreams.Out.written ++ mapIndex rootCmd.Annotations "versionInfo" ∧
      f'.IOStreams.ErrOut = f.IOStreams.ErrOut := by
  rw [NewCmdRoot_eq]
  refine ⟨rootNode v (h.length + 1), versionNode h.length, h.length + 1, _,
    getElem?_root v h, rfl, getElem?_version v h, versionNode_Name _, ?_, runHandler_version f v h args, ?_, rfl⟩
  · simp [rootNode, mapIndex, List.lookup]
  · simp [rootNode, mapIndex, List.lookup, io.Writer.Write]

/-- C5: `NewCmdRoot` returns a tree and a nil error for every factory and
every version string, and a second call with the same inputs, made after the
first, builds an equal tree. -/
theorem NewCmdRoot_never_fails (f : cmdutil.Factory) (v : String) (h : Heap) :
    (NewCmdRoot f v h).1.2 = none ∧
      treeAt (NewCmdRoot f v h).2 (NewCmdRoot f v h).1.1 = some (builtTree v) ∧
      (NewCmdRoot f v (NewCmdRoot f v h).2).1.2 = none ∧
      treeAt (NewCmdRoot f v (NewCmdRoot f v h).2).2 (NewCmdRoot f v (NewCmdRoot f v h).2).1.1
        = treeAt (NewCmdRoot f v h).2 (NewCmdRoot f v h).1.1 := by
  have h1 : treeAt (NewCmdRoot f v h).2 (NewCmdRoot f v h).1.1 = some (builtTree v) := by
    rw [NewCmdRoot_eq]; exact treeAt_root v h
  have h2 : treeAt (NewCmdRoot f v (NewCmdRoot f v h).2).2
      (NewCmdRoot f v (NewCmdRoot f v h).2).1.1 = some (builtTree v) := by
    rw [NewCmdRoot_eq f v (NewCmdRoot f v h).2]; exact treeAt_root v _
  refine ⟨by rw [NewCmdRoot_eq], h1, by rw [NewCmdRoot_eq f v (NewCmdRoot f v h).2], ?_⟩
  rw [h1, h2]

/-- C7: the root node returned by `NewCmdRoot f v` has the one-entry
annotation map "versionInfo" ↦ `Format v` and exactly one child, the command
named "version", which is hidden and whose root ancestor is the root node. -/
theorem NewCmdRoot_shape (f : cmdutil.Factory) (v : String) (h : Heap) :
    ∃ rootCmd versionCmd q,
      (NewCmdRoot f v h).2[(NewCmdRoot f v h).1.1]? = some rootCmd ∧
      rootCmd.Annotations = [("versionInfo", version.Format v)] ∧
      rootCmd.commands = [q] ∧
      (NewCmdRoot f v h).2[q]? = some versionCmd ∧
      versionCmd.Name = "version" ∧
      versionCmd.Hidden = true ∧
      Root (NewCmdRoot f v h).2 q = some (NewCmdRoot f v h).1.1 := by
  rw [NewCmdRoot_eq]
  exact ⟨rootNode v (h.length + 1), versionNode h.length, h.length + 1,
    getElem?_root v h, rfl, rfl, getElem?_version v h, versionNode_Name _, rfl, Root_version v h⟩

/-- C10: for two factories that differ only in `AppVersion` and
`ExecutableName`, `NewCmdRoot` builds the same tree with the same
"versionInfo" annotation, `Format v`, and the version handlers append the
same bytes, `Format v`, to the output stream. -/
theorem banner_ignores_factory_fields (f₁ f₂ : cmdutil.Factory) (v : String) (h : Heap)
    (args : List String) (hio : f₁.IOStreams = f₂.IOStreams) :
    NewCmdRoot f₁ v h = NewCmdRoot f₂ v h ∧
      ∃ rootCmd q g₁ g₂,
        (NewCmdRoot f₁ v h).2[(NewCmdRoot f₁ v h).1.1]? = some rootCmd ∧
        rootCmd.commands = [q] ∧
        mapIndex rootCmd.Annotations "versionInfo" = version.Format v ∧
        runHandler f₁ (NewCmdRoot f₁ v h).2 q args = some g₁ ∧
        runHandler f₂ (NewCmdRoot f₂ v h).2 q args = some g₂ ∧
        g₁.IOStreams.Out.written = f₁.IOStreams.Out.written ++ version.Format v ∧
        g₂.IOStreams.Out.written = f₂.IOStreams.Out.written ++ version.Format v ∧
        g₁.IOStreams = g₂.IOStreams := by
  refine ⟨by rw [NewCmdRoot_eq, NewCmdRoot_eq], ?_⟩
  rw [NewCmdRoot_eq, NewCmdRoot_eq]
  refine ⟨rootNode v (h.length + 1), h.length + 1, _, _, getElem?_root v h, rfl, ?_,
    runHandler_version f₁ v h args, runHandler_version f₂ v h args, rfl, rfl, ?_⟩
  · simp [rootNode, mapIndex, List.lookup]
  · simp only [hio]

/-- Witness of C10: two factories with different versions and executable names. -/
theorem banner_ignores_factory_fields_witness :
    NewCmdRoot (factory.New "1.0.0") "1.2.3" []
        = NewCmdRoot { factory.New "2.0.0" with ExecutableName := "other" } "1.2.3" [] ∧
      ∃ g₁ g₂,
        runHandler (factory.New "1.0.0") (NewCmdRoot (factory.New "1.0.0") "1.2.3" []).2 1 []
          = some g₁ ∧
        runHandler { factory.New "2.0.0" with ExecutableName := "other" }
          (NewCmdRoot { factory.New "2.0.0" with ExecutableName := "other" } "1.2.3" []).2 1 []
          = some g₂ ∧
        g₁.IOStreams = g₂.IOStreams := by
  obtain ⟨ht, rootCmd, q, g₁, g₂, hr, hq, _, hg₁, hg₂, _, _, hg⟩ :=
    banner_ignores_factory_fields (factory.New "1.0.0")
      { factory.New "2.0.0" with ExecutableName := "other" } "1.2.3" [] [] rfl
  have hr2 : rootCmd = rootNode "1.2.3" 1 := by
    rw [NewCmdRoot_eq] at hr
    simpa using hr.symm
  have hq1 : q = 1 := by
    rw [hr2] at hq
    simpa [rootNode] using hq.symm
  subst hq1
  exact ⟨ht, g₁, g₂, hg₁, hg₂, hg⟩

end root

/-! ## Claims about the factory, build-version detection and the entry point -/

namespace factory

/-- C8: `New v` returns a factory whose `AppVersion` is `v`, whose
`ExecutableName` is "linkctl", and whose streams are handles on the standard
input, output and error of the process; `New` is a total function. -/
theorem New_fields (v : String) :
    (New v).AppVersion = v ∧
      (New v).ExecutableName = "linkctl" ∧
      (New v).IOStreams = iostreams.System ∧
      (New v).IOStreams.In.file = os.Stdin ∧
      (New v).IOStreams.Out.file = os.Stdout ∧
      (New v).IOStreams.ErrOut.file = os.Stderr :=
  ⟨rfl, rfl, rfl, rfl, rfl, rfl⟩

end factory

namespace build

/-- C6 fails as stated with the marker "devel": for build information whose
main module version is "devel" the code sets `Version` to "devel", not to
the empty string, and for the version "(devel)", which is not the string
"devel", the code leaves `Version` empty. -/
theorem init_devel_counterexample :
    init (some { Main := { Version := "devel" } }) = "devel" ∧
      init (some { Main := { Version := "devel" } }) ≠ "" ∧
      init (some { Main := { Version := "(devel)" } }) = "" ∧
      init (some { Main := { Version := "(devel)" } }) ≠ "(devel)" := by
  decide

/-- C6, amended: when build information is available and its main module
version `m` is not the marker "(devel)", `Version` is set to `m`; in every
other case `Version` is left as the empty string. -/
theorem init_spec (readBuildInfo : Option debug.BuildInfo) :
    (∀ info, readBuildInfo = some info → info.Main.Version ≠ "(devel)" →
        init readBuildInfo = info.Main.Version) ∧
      (¬ (∃ info, readBuildInfo = some info ∧ info.Main.Version ≠ "(devel)") →
        init readBuildInfo = "") := by
  constructor
  · rintro info rfl hne
    simp [init, hne]
  · intro hno
    cases readBuildInfo with
    | none => rfl
    | some info =>
      have : info.Main.Version = "(devel)" := by
        by_contra hne
        exact hno ⟨info, rfl, hne⟩
      simp [init, this, Version]

/-- Witness of the amended C6: a released version, the "(devel)" marker, and no build information. -/
theorem init_spec_witness :
    init (some { Main := { Version := "v1.2.3" } }) = "v1.2.3" ∧
      init (some { Main := { Version := "(devel)" } }) = "" ∧
      init none = "" :=
  ⟨(init_spec (some { Main := { Version := "v1.2.3" } })).1 _ rfl (by decide),
   (init_spec (some { Main := { Version := "(devel)" } })).2 (by decide),
   (init_spec none).2 (by simp)⟩

end build

namespace cmd

open cobra

/-- C4: when construction of the root command fails with `err`, `Main`
returns 1, the error stream receives "failed to create root command: " +
`err` + "\n", and the executor is not consulted; when construction succeeds
and execution fails with `err`, `Main` returns 1 and the error stream
receives "error: " + `err` + "\n" after what execution left there; otherwise
`Main` returns 0 and writes nothing. -/
theorem Main_exit (buildVersion : String)
    (NewCmdRoot : cmdutil.Factory → String → Heap → (Ptr × Option error) × Heap)
    (ExecuteContextC : cmdutil.Factory → Heap → Ptr → cmdutil.Factory × Option error) :
    (∀ p err h, NewCmdRoot (factory.New buildVersion) buildVersion [] = ((p, some err), h) →
        (Main buildVersion NewCmdRoot ExecuteContextC).1 = 1 ∧
        (Main buildVersion NewCmdRoot ExecuteContextC).2.IOStreams.ErrOut.written
          = "failed to create root command: " ++ err ++ "\n" ∧
        (Main buildVersion NewCmdRoot ExecuteContextC).2.IOStreams.Out.written = "" ∧
        ∀ other, Main buildVersion NewCmdRoot other
          = Main buildVersion NewCmdRoot ExecuteContextC) ∧
      (∀ p h f err, NewCmdRoot (factory.New buildVersion) buildVersion [] = ((p, none), h) →
        ExecuteContextC (factory.New buildVersion) h p = (f, some err) →
        (Main buildVersion NewCmdRoot ExecuteContextC).1 = 1 ∧
        (Main buildVersion NewCmdRoot ExecuteContextC).2.IOStreams.ErrOut.written
          = f.IOStreams.ErrOut.written ++ "error: " ++ err ++ "\n" ∧
        (Main buildVersion NewCmdRoot ExecuteContextC).2.IOStreams.Out = f.IOStreams.Out) ∧
      (∀ p h f, NewCmdRoot (factory.New buildVersion) buildVersion [] = ((p, none), h) →
        ExecuteContextC (factory.New buildVersion) h p = (f, none) →
        Main buildVersion NewCmdRoot ExecuteContextC = (0, f)) := by
  refine ⟨?_, ?_, ?_⟩
  · intro p err h hc
    have hs : fmt.Sprintf "failed to create root command: %s\n" [err]
        = "failed to create root command: " ++ err ++ "\n" := by
      apply String.ext
      simp [fmt.Sprintf, fmt.format]
    refine ⟨?_, ?_, ?_, ?_⟩
    · simp [Main, hc, exitError]
    · simp only [Main, hc, fmt.Fprintf, io.Writer.Write, hs]
      apply String.ext
      simp [factory.New, factory.ioStreams, iostreams.System]
    · simp only [Main, hc]
      rfl
    · intro other
      simp [Main, hc]
  · intro p h f err hc he
    have hs : fmt.Sprintf "error: %s\n" [err] = "error: " ++ err ++ "\n" := by
      apply String.ext
      simp [fmt.Sprintf, fmt.format]
    refine ⟨?_, ?_, ?_⟩
    · simp [Main, hc, he, exitError]
    · simp only [Main, hc, he, fmt.Fprintf, io.Writer.Write, hs]
      apply String.ext
      simp
    · simp [Main, hc, he]
  · intro p h f hc he
    simp [Main, hc, he, exitOK]

/-- Witness of C4: a failing constructor; the program's constructor with a
failing executor; the program's constructor with a succeeding executor. -/
theorem Main_exit_witness :
    ((Main "1.2.3" (fun _ _ h => ((0, some "boom"), h)) (fun f _ _ => (f, none))).1 = 1 ∧
      (Main "1.2.3" (fun _ _ h => ((0, some "boom"), h))
          (fun f _ _ => (f, none))).2.IOStreams.ErrOut.written
        = "failed to create root command: boom\n") ∧
    ((Main "1.2.3" root.NewCmdRoot (fun f _ _ => (f, some "unknown command"))).1 = 1 ∧
      (Main "1.2.3" root.NewCmdRoot
          (fun f _ _ => (f, some "unknown command"))).2.IOStreams.ErrOut.written
        = "error: unknown command\n") ∧
    Main "1.2.3" root.NewCmdRoot (fun f _ _ => (f, none)) = (0, factory.New "1.2.3") := by
  refine ⟨?_, ?_, ?_⟩
  · have h := (Main_exit "1.2.3" (fun _ _ h => ((0, some "boom"), h))
      (fun f _ _ => (f, none))).1 0 "boom" [] rfl
    exact ⟨h.1, h.2.1.trans (by decide)⟩
  · have h := (Main_exit "1.2.3" root.NewCmdRoot
      (fun f _ _ => (f, some "unknown command"))).2.1 0 _ (factory.New "1.2.3")
        "unknown command" (root.NewCmdRoot_eq _ _ _) rfl
    exact ⟨h.1, h.2.1.trans (by decide)⟩
  · exact (Main_exit "1.2.3" root.NewCmdRoot (fun f _ _ => (f, none))).2.2 0 _
      (factory.New "1.2.3") (root.NewCmdRoot_eq _ _ _) rfl

end cmd
